import Mathlib

/-!
Shallow embedding of `multiview-volume/src/main.cpp`: the view sample
extractor (`processView`), the voxel accumulator (`combineVoxels`) and the
per-frame assembly step of `main`.  Machine floats are modelled as exact
rationals, image bytes as `Fin 256`, and the two OpenVDB grids as
association lists from integer coordinates to values (absent key =
background value 0).
-/

namespace MultiviewVolume

/-- `openvdb::Vec3f` RGB color triple, components modelled as exact rationals. -/
@[ext]
structure Vec3f where
  r : ℚ
  g : ℚ
  b : ℚ
deriving DecidableEq

/-- `struct VoxelData` (main.cpp:31-36): grid coordinates, color and alpha. -/
structure VoxelData where
  x : ℤ
  y : ℤ
  z : ℤ
  color : Vec3f
  alpha : ℚ
deriving DecidableEq

/-- A decoded image buffer as produced by `stbi_load`: dimensions, channel
count and the flat byte buffer. -/
structure Image where
  width : ℕ
  height : ℕ
  channels : ℕ
  data : List (Fin 256)
deriving DecidableEq

/-- Byte offset used by `processView` for channel `c` of the pixel its loop
labels row `y`, column `z` (main.cpp:156-159):
`(z * width * channels) + (y * channels) + c`. -/
def pixelIndex (img : Image) (y z c : ℕ) : ℕ :=
  z * img.width * img.channels + y * img.channels + c

/-- The normalized channel value `img[pixelIndex ...] / 255.0f` read by
`processView`. -/
def readChannel (img : Image) (y z c : ℕ) : ℚ :=
  ((img.data.getD (pixelIndex img y z c) 0).val : ℚ) / 255

/-- The row-major offset of the pixel at row `y`, column `z`.  Modelled from
the spec's words ("buffer is row-major interleaved channels"), for comparison
with the offset the code actually uses. -/
def rowMajorIndex (img : Image) (y z c : ℕ) : ℕ :=
  (y * img.width + z) * img.channels + c

/-- `const float depthThreshold = 0.05f` (main.cpp:147), exact value `1/20`. -/
def depthThreshold : ℚ := 1 / 20

/-- `std::round`: round half away from zero. -/
def roundHalfAway (q : ℚ) : ℤ :=
  if 0 ≤ q then ⌊q + 1 / 2⌋ else ⌈q - 1 / 2⌉

/-- The along-axis index `x = (int)std::round(depth * (textureSize - 1))`
with `depth = 1.0f - a` (main.cpp:161-162). -/
def alongAxisIndex (a : ℚ) (textureSize : ℤ) : ℤ :=
  roundHalfAway ((1 - a) * ((textureSize : ℚ) - 1))

/-- The rejection test `depth < depthThreshold || depth > (1.0f - depthThreshold)`
(main.cpp:164). -/
def rejectedDepth (depth : ℚ) : Bool :=
  decide (depth < depthThreshold) || decide (depth > 1 - depthThreshold)

/-- The `switch (viewIndex)` of main.cpp:175-207: per-view remap of the
along-axis index `x` and pixel labels `(y, z)` into volume coordinates.
View order follows the program's suffix order `nx, ny, nz, px, py, pz`,
i.e. `-x, -y, -z, +x, +y, +z`. -/
def remapCoord (viewIndex : Fin 6) (textureSize x y z : ℤ) : ℤ × ℤ × ℤ :=
  match viewIndex with
  | 0 => (textureSize - 1 - x, y, z)
  | 1 => (textureSize - 1 - z, textureSize - 1 - y, x)
  | 2 => (textureSize - 1 - y, textureSize - 1 - x, z)
  | 3 => (x, textureSize - 1 - y, z)
  | 4 => (textureSize - 1 - z, y, textureSize - 1 - x)
  | 5 => (y, x, z)

/-- The remap table exactly as the specification's §4.1 table states it,
rows in view order `-x, -y, -z, +x, +y, +z`. -/
def specRemapTable (view : Fin 6) (n x y z : ℤ) : ℤ × ℤ × ℤ :=
  match view with
  | 0 => (n - 1 - x, y, z)
  | 1 => (n - 1 - z, n - 1 - y, x)
  | 2 => (n - 1 - y, n - 1 - x, z)
  | 3 => (x, n - 1 - y, z)
  | 4 => (n - 1 - z, y, n - 1 - x)
  | 5 => (y, x, z)

/-- Loop body of `processView` for one pixel (main.cpp:152-211): read the
four channels, compute depth and the along-axis index, reject near/far
samples, otherwise emit the remapped voxel contribution with weight 1. -/
def processPixel (img : Image) (viewIndex : Fin 6) (textureSize : ℤ)
    (y z : ℕ) : Option VoxelData :=
  let r := readChannel img y z 0
  let g := readChannel img y z 1
  let b := readChannel img y z 2
  let a := readChannel img y z 3
  let depth := 1 - a
  let x := alongAxisIndex a textureSize
  if rejectedDepth depth then none
  else
    let c := remapCoord viewIndex textureSize x (y : ℤ) (z : ℤ)
    some { x := c.1, y := c.2.1, z := c.2.2, color := ⟨r, g, b⟩, alpha := 1 }

/-- `processView` (main.cpp:120-222): a failed decode (`none`) contributes
nothing; otherwise every pixel of the `height × width` loop nest is
processed and the retained pixels are emitted in loop order. -/
def processView (img : Option Image) (viewIndex : Fin 6) (textureSize : ℤ) :
    List VoxelData :=
  match img with
  | none => []
  | some img =>
      (List.range img.height).flatMap fun y =>
        (List.range img.width).filterMap fun z =>
          processPixel img viewIndex textureSize y z

/-- Integer 3D coordinate key of the sparse grids (`openvdb::Coord`). -/
abbrev Coord := ℤ × ℤ × ℤ

/-- The coordinate a voxel contribution targets. -/
def coordOf (v : VoxelData) : Coord := (v.x, v.y, v.z)

/-- The bounds test of `combineVoxels` (main.cpp:228-230). -/
def inBounds (textureSize : ℤ) (v : VoxelData) : Bool :=
  decide (0 ≤ v.x) && decide (v.x < textureSize) &&
  decide (0 ≤ v.y) && decide (v.y < textureSize) &&
  decide (0 ≤ v.z) && decide (v.z < textureSize)

/-- The same bounds test on a bare coordinate. -/
def coordInBounds (textureSize : ℤ) (c : Coord) : Bool :=
  decide (0 ≤ c.1) && decide (c.1 < textureSize) &&
  decide (0 ≤ c.2.1) && decide (c.2.1 < textureSize) &&
  decide (0 ≤ c.2.2) && decide (c.2.2 < textureSize)

/-- First-match lookup in an association list of grid entries. -/
def lookupEntry {α : Type} (entries : List (Coord × α)) (c : Coord) : Option α :=
  match entries with
  | [] => none
  | e :: t => if e.1 = c then some e.2 else lookupEntry t c

/-- `tree().setValue`: overwrite the entry at `c` if present, else add it. -/
def setEntry {α : Type} (entries : List (Coord × α)) (c : Coord) (v : α) :
    List (Coord × α) :=
  match entries with
  | [] => [(c, v)]
  | e :: t => if e.1 = c then (c, v) :: t else e :: setEntry t c v

/-- The pair of sparse grids (`RGB` and `Alpha`) built by `combineVoxels`.
The entry lists model the trees' active voxels; `tree().getValue` on an
absent coordinate returns the background value 0. -/
structure GridsState where
  rgb : List (Coord × Vec3f)
  alpha : List (Coord × ℚ)
deriving DecidableEq

/-- `rgbGrid->tree().getValue(coord)` with background `Vec3f(0,0,0)`. -/
def rgbValue (st : GridsState) (c : Coord) : Vec3f :=
  (lookupEntry st.rgb c).getD ⟨0, 0, 0⟩

/-- `alphaGrid->tree().getValue(coord)` with background `0.0f`. -/
def alphaValue (st : GridsState) (c : Coord) : ℚ :=
  (lookupEntry st.alpha c).getD 0

/-- Loop body of `combineVoxels` (main.cpp:226-252): drop out-of-bounds
contributions; store the first contribution at a coordinate directly;
otherwise merge by the alpha-weighted average. -/
def combineStep (textureSize : ℤ) (st : GridsState) (voxel : VoxelData) :
    GridsState :=
  if inBounds textureSize voxel then
    let coord := coordOf voxel
    let existingColor := rgbValue st coord
    let existingAlpha := alphaValue st coord
    if existingAlpha = 0 then
      { rgb := setEntry st.rgb coord voxel.color,
        alpha := setEntry st.alpha coord voxel.alpha }
    else
      let totalAlpha := existingAlpha + voxel.alpha
      let combinedColor : Vec3f :=
        ⟨(existingColor.r * existingAlpha + voxel.color.r * voxel.alpha) / totalAlpha,
         (existingColor.g * existingAlpha + voxel.color.g * voxel.alpha) / totalAlpha,
         (existingColor.b * existingAlpha + voxel.color.b * voxel.alpha) / totalAlpha⟩
      { rgb := setEntry st.rgb coord combinedColor,
        alpha := setEntry st.alpha coord totalAlpha }
  else st

/-- The freshly created grid pair of `main` (main.cpp:299-303). -/
def emptyGrids : GridsState := ⟨[], []⟩

/-- `combineVoxels` (main.cpp:224-253): fold the merge step over the
contribution list in arrival order, starting from empty grids. -/
def combineVoxels (voxelDataList : List VoxelData) (textureSize : ℤ) :
    GridsState :=
  voxelDataList.foldl (combineStep textureSize) emptyGrids

/-- The per-frame pipeline of `main` (main.cpp:281-306): concatenate the six
views' contributions in view order and accumulate them. -/
def processFrame (imgs : Fin 6 → Option Image) (textureSize : ℤ) : GridsState :=
  combineVoxels
    (((List.finRange 6).map fun i => processView (imgs i) i textureSize).flatten)
    textureSize

/-- The exact 90° rotation matrix about the X axis (`cos = 0`, `sin = 1`),
modelling `postRotate(M_PI / 2, openvdb::math::X_AXIS)`. -/
def rotX90 : Matrix (Fin 3) (Fin 3) ℚ := !![1, 0, 0; 0, 0, -1; 0, 1, 0]

/-- `transform->postRotate(M_PI / 2, X_AXIS)` acting on the linear part of a
grid transform: post-multiplication by the fixed rotation. -/
def postRotateX90 (t : Matrix (Fin 3) (Fin 3) ℚ) : Matrix (Fin 3) (Fin 3) ℚ :=
  t * rotX90

/-- An exportable grid: its tree of active voxels plus the attached
frame-to-world transform (linear part). -/
structure VolumeGrid (α : Type) where
  tree : List (Coord × α)
  transform : Matrix (Fin 3) (Fin 3) ℚ

/-- The assembly step of `main` (main.cpp:308-315): rotate both grids'
transforms by 90° about the X axis; the trees are untouched. -/
def assembleFrame (rgbGrid : VolumeGrid Vec3f) (alphaGrid : VolumeGrid ℚ) :
    VolumeGrid Vec3f × VolumeGrid ℚ :=
  ({ rgbGrid with transform := postRotateX90 rgbGrid.transform },
   { alphaGrid with transform := postRotateX90 alphaGrid.transform })

/-- The in-bounds contributions of `l` that target coordinate `c`. -/
def contribsAt (l : List VoxelData) (textureSize : ℤ) (c : Coord) :
    List VoxelData :=
  l.filter fun v => inBounds textureSize v && decide (coordOf v = c)

/-- Total weight of a contribution list. -/
def weightSum (l : List VoxelData) : ℚ := (l.map fun v => v.alpha).sum

/-- Alpha-weighted red moment of a contribution list. -/
def momentR (l : List VoxelData) : ℚ := (l.map fun v => v.color.r * v.alpha).sum

/-- Alpha-weighted green moment of a contribution list. -/
def momentG (l : List VoxelData) : ℚ := (l.map fun v => v.color.g * v.alpha).sum

/-- Alpha-weighted blue moment of a contribution list. -/
def momentB (l : List VoxelData) : ℚ := (l.map fun v => v.color.b * v.alpha).sum

/-- Concrete 3×2 RGBA image whose pixel at row 1, column 2 carries bytes
`(10, 20, 30, 26)` (so `a = 26/255`, depth `229/255`, along-axis index 3
for `N = 4`). -/
def imgC1 : Image := ⟨3, 2, 4, List.replicate 28 0 ++ [10, 20, 30, 26]⟩

/-- The contribution the extractor emits for that pixel under view `-x`,
`N = 4`: volume coordinate `(0, 1, 2)`. -/
def vC1 : VoxelData := ⟨0, 1, 2, ⟨10/255, 20/255, 30/255⟩, 1⟩

/-- Concrete 2×2 RGBA image whose byte at offset 4 is 0 and at offset 8
is 255. -/
def imgC3 : Image := ⟨2, 2, 4, [0, 0, 0, 0, 0, 0, 0, 0, 255, 0, 0, 0, 0, 0, 0, 0]⟩

/-- A red weight-1 contribution at the origin. -/
def vRed : VoxelData := ⟨0, 0, 0, ⟨1, 0, 0⟩, 1⟩

/-- A green weight-1 contribution at the origin. -/
def vGreen : VoxelData := ⟨0, 0, 0, ⟨0, 1, 0⟩, 1⟩

/-- A contribution whose x coordinate equals `N = 4`, hence out of range. -/
def vOut : VoxelData := ⟨4, 0, 0, ⟨1, 1, 1⟩, 1⟩

/-- C1: for every retained pixel, the volume coordinate of the emitted
contribution is given exactly by the spec's fixed remap table applied to the
computed along-axis index `x` and the pixel's image row `y` and column `z`,
for each of the six views. -/
theorem retained_pixel_follows_remap_table (img : Image) (viewIndex : Fin 6)
    (textureSize : ℤ) (y z : ℕ) (v : VoxelData)
    (h : processPixel img viewIndex textureSize y z = some v) :
    (v.x, v.y, v.z) =
      specRemapTable viewIndex textureSize
        (alongAxisIndex (readChannel img y z 3) textureSize) (y : ℤ) (z : ℤ) := by
  unfold processPixel at h
  by_cases hr : rejectedDepth (1 - readChannel img y z 3)
  · simp [hr] at h
  · simp [hr] at h
    subst h
    fin_cases viewIndex <;> rfl

unseal Rat.mul Rat.inv Rat.add Rat.sub in
/-- C1 witness: view `-x`, `N = 4`, the pixel of `imgC1` at row 1, column 2
(computed `x = 3`) is retained and maps to volume coordinate `(0, 1, 2)`. -/
theorem retained_pixel_follows_remap_table_witness :
    (vC1.x, vC1.y, vC1.z) =
      specRemapTable 0 4 (alongAxisIndex (readChannel imgC1 1 2 3) 4) 1 2 :=
  retained_pixel_follows_remap_table imgC1 0 4 1 2 vC1 (by decide)

unseal Rat.mul Rat.inv Rat.add Rat.sub in
/-- C3 counterexample: the red value the extractor reads for the pixel at
row 0, column 1 of `imgC3` is not the byte at the row-major offset
`(y*width + z)*channels`, divided by 255. -/
theorem readChannel_differs_from_rowMajor :
    readChannel imgC3 0 1 0 ≠
      ((imgC3.data.getD (rowMajorIndex imgC3 0 1 0) 0).val : ℚ) / 255 := by
  decide

/-- C3 amended: the extractor's per-pixel values `r, g, b, a` for the pixel
at image row `y`, column `z` equal the buffer bytes at offset
`(z*width + y)*channels + 0..3` (i.e. `pixelIndex`), each divided by 255. -/
theorem extracted_channels_from_buffer (img : Image) (viewIndex : Fin 6)
    (textureSize : ℤ) (y z : ℕ) (v : VoxelData)
    (h : processPixel img viewIndex textureSize y z = some v) :
    v.color.r = ((img.data.getD (pixelIndex img y z 0) 0).val : ℚ) / 255 ∧
    v.color.g = ((img.data.getD (pixelIndex img y z 1) 0).val : ℚ) / 255 ∧
    v.color.b = ((img.data.getD (pixelIndex img y z 2) 0).val : ℚ) / 255 ∧
    readChannel img y z 3 = ((img.data.getD (pixelIndex img y z 3) 0).val : ℚ) / 255 := by
  unfold processPixel at h
  by_cases hr : rejectedDepth (1 - readChannel img y z 3)
  · simp [hr] at h
  · simp [hr] at h
    subst h
    exact ⟨rfl, rfl, rfl, rfl⟩

unseal Rat.mul Rat.inv Rat.add Rat.sub in
/-- C3 amended witness: the retained pixel of `imgC1` at row 1, column 2
carries exactly the bytes at `pixelIndex` offsets 0..3, divided by 255. -/
theorem extracted_channels_from_buffer_witness :
    vC1.color.r = ((imgC1.data.getD (pixelIndex imgC1 1 2 0) 0).val : ℚ) / 255 ∧
    vC1.color.g = ((imgC1.data.getD (pixelIndex imgC1 1 2 1) 0).val : ℚ) / 255 ∧
    vC1.color.b = ((imgC1.data.getD (pixelIndex imgC1 1 2 2) 0).val : ℚ) / 255 ∧
    readChannel imgC1 1 2 3 = ((imgC1.data.getD (pixelIndex imgC1 1 2 3) 0).val : ℚ) / 255 :=
  extracted_channels_from_buffer imgC1 0 4 1 2 vC1 (by decide)

/-- C4: with the fixed threshold `t = 1/20` (`0.05`), a pixel yields no
contribution iff its depth `1 - a` satisfies `depth < t` or `depth > 1 - t`;
a pixel with `a = 99/100` (depth `1/100`) is rejected and a pixel with
`a = 1/2` (depth `1/2`) is accepted. -/
theorem pixel_discarded_iff_depth_out_of_band :
    (∀ (img : Image) (viewIndex : Fin 6) (textureSize : ℤ) (y z : ℕ),
        processPixel img viewIndex textureSize y z = none ↔
          (1 - readChannel img y z 3 < depthThreshold ∨
           1 - readChannel img y z 3 > 1 - depthThreshold)) ∧
    depthThreshold = 1 / 20 ∧
    rejectedDepth (1 - 99 / 100) = true ∧
    rejectedDepth (1 - 1 / 2) = false := by
  refine ⟨?_, rfl, ?_, ?_⟩
  · intro img viewIndex textureSize y z
    have h1 : processPixel img viewIndex textureSize y z = none ↔
        rejectedDepth (1 - readChannel img y z 3) = true := by
      unfold processPixel
      cases hb : rejectedDepth (1 - readChannel img y z 3) <;> simp [hb]
    rw [h1]
    simp [rejectedDepth]
  · norm_num [rejectedDepth, depthThreshold]
  · norm_num [rejectedDepth, depthThreshold]

/-- C5: for any `a ∈ [0,1]` and any resolution `N ≥ 1`, the along-axis index
`round((1-a) * (N-1))` lies in `[0, N-1]` (it is a pure function of `a` and
`N`, hence deterministic). -/
theorem alongAxisIndex_mem_range (a : ℚ) (N : ℤ)
    (h0 : 0 ≤ a) (h1 : a ≤ 1) (hN : 1 ≤ N) :
    0 ≤ alongAxisIndex a N ∧ alongAxisIndex a N ≤ N - 1 := by
  have hN1 : (1 : ℚ) ≤ (N : ℚ) := by exact_mod_cast hN
  have hq0 : (0 : ℚ) ≤ (1 - a) * ((N : ℚ) - 1) := by nlinarith
  have hq1 : (1 - a) * ((N : ℚ) - 1) ≤ (N : ℚ) - 1 := by nlinarith
  unfold alongAxisIndex roundHalfAway
  rw [if_pos hq0]
  constructor
  · refine Int.le_floor.mpr ?_
    rw [Int.cast_zero]
    linarith
  · have hlt : (1 - a) * ((N : ℚ) - 1) + 1 / 2 < ((N : ℤ) : ℚ) := by
      have h2 : (0 : ℚ) < 1 / 2 := by norm_num
      linarith
    have := Int.floor_lt.mpr hlt
    omega

/-- C5 witness: `a = 1/2`, `N = 4`. -/
theorem alongAxisIndex_mem_range_witness :
    0 ≤ alongAxisIndex (1 / 2) 4 ∧ alongAxisIndex (1 / 2) 4 ≤ 4 - 1 :=
  alongAxisIndex_mem_range (1 / 2) 4 (by norm_num) (by norm_num) (by norm_num)

/-- C7: a failed decode yields the empty contribution sequence for that
view, and a frame in which all six views fail to decode still produces the
(empty) volume pair. -/
theorem failed_decode_yields_empty :
    (∀ (viewIndex : Fin 6) (textureSize : ℤ),
        processView none viewIndex textureSize = []) ∧
    (∀ textureSize : ℤ, processFrame (fun _ => none) textureSize = emptyGrids) :=
  ⟨fun _ _ => rfl, fun _ => rfl⟩

/-- C9: assembling a frame post-multiplies both grids' transforms by the
fixed 90° X-axis rotation and leaves every per-voxel entry produced by the
accumulator unchanged. -/
theorem assembleFrame_rotates_transform_only (l : List VoxelData) (N : ℤ)
    (t₁ t₂ : Matrix (Fin 3) (Fin 3) ℚ) :
    (assembleFrame ⟨(combineVoxels l N).rgb, t₁⟩ ⟨(combineVoxels l N).alpha, t₂⟩).1.tree
        = (combineVoxels l N).rgb ∧
    (assembleFrame ⟨(combineVoxels l N).rgb, t₁⟩ ⟨(combineVoxels l N).alpha, t₂⟩).2.tree
        = (combineVoxels l N).alpha ∧
    (assembleFrame ⟨(combineVoxels l N).rgb, t₁⟩ ⟨(combineVoxels l N).alpha, t₂⟩).1.transform
        = t₁ * rotX90 ∧
    (assembleFrame ⟨(combineVoxels l N).rgb, t₁⟩ ⟨(combineVoxels l N).alpha, t₂⟩).2.transform
        = t₂ * rotX90 :=
  ⟨rfl, rfl, rfl, rfl⟩

/-- C10: with `width = height` and at least 4 channels every per-pixel
buffer access of `processView` lies inside the `width*height*channels`
buffer; for any image with more columns than rows (and at least one row),
some iteration accesses an offset at or beyond the end of the buffer. -/
theorem pixelIndex_safety (img : Image) :
    (img.width = img.height → 4 ≤ img.channels →
      ∀ y z c : ℕ, y < img.height → z < img.width → c < 4 →
        pixelIndex img y z c < img.width * img.height * img.channels) ∧
    (img.height < img.width → 1 < img.width → 1 ≤ img.height →
      ∃ y z c : ℕ, y < img.height ∧ z < img.width ∧ c < 4 ∧
        img.width * img.height * img.channels ≤ pixelIndex img y z c) := by
  constructor
  · intro hwh hch y z c hy hz hc
    unfold pixelIndex
    have hz1 : z + 1 ≤ img.width := hz
    have hy1 : y + 1 ≤ img.height := hy
    have hA : (z + 1) * img.height ≤ img.width * img.height :=
      Nat.mul_le_mul_right _ hz1
    have hc' : c < img.channels := by omega
    have key : z * img.width + y + 1 ≤ img.width * img.height := by
      rw [hwh] at hA ⊢
      rw [add_mul, one_mul] at hA
      linarith
    calc z * img.width * img.channels + y * img.channels + c
        < (z * img.width + y + 1) * img.channels := by
          rw [add_mul, add_mul, one_mul]; omega
      _ ≤ img.width * img.height * img.channels :=
          Nat.mul_le_mul_right _ key
  · intro hhw hw1 hh1
    refine ⟨0, img.width - 1, 0, hh1, by omega, by norm_num, ?_⟩
    unfold pixelIndex
    obtain ⟨w, hw⟩ : ∃ w, img.width = w + 1 := ⟨img.width - 1, by omega⟩
    have hhl : img.height ≤ w := by omega
    have hA : (w + 1) * img.height ≤ (w + 1) * w := Nat.mul_le_mul_left _ hhl
    have key : img.width * img.height ≤ (img.width - 1) * img.width := by
      rw [hw]
      simpa [Nat.mul_comm] using hA
    calc img.width * img.height * img.channels
        ≤ (img.width - 1) * img.width * img.channels :=
          Nat.mul_le_mul_right _ key
      _ ≤ (img.width - 1) * img.width * img.channels + 0 * img.channels + 0 := by omega

/-- C10 witness: a 2×2 image with 4 channels stays in bounds at its last
pixel; a 3-wide, 2-high image with 4 channels reaches past the buffer end. -/
theorem pixelIndex_safety_witness :
    (pixelIndex ⟨2, 2, 4, []⟩ 1 1 3 < 2 * 2 * 4) ∧
    (∃ y z c : ℕ, y < 2 ∧ z < 3 ∧ c < 4 ∧
      3 * 2 * 4 ≤ pixelIndex ⟨3, 2, 4, []⟩ y z c) :=
  ⟨(pixelIndex_safety ⟨2, 2, 4, []⟩).1 rfl (by norm_num) 1 1 3 (by norm_num)
      (by norm_num) (by norm_num),
   (pixelIndex_safety ⟨3, 2, 4, []⟩).2 (by norm_num) (by norm_num) (by norm_num)⟩

theorem lookupEntry_setEntry_ne {α : Type} (l : List (Coord × α)) (c c' : Coord)
    (v : α) (h : c ≠ c') : lookupEntry (setEntry l c v) c' = lookupEntry l c' := by
  induction l with
  | nil => simp [setEntry, lookupEntry, h]
  | cons e t ih =>
    by_cases he : e.1 = c
    · simp [setEntry, lookupEntry, he, h]
    · simp [setEntry, lookupEntry, he, ih]

theorem lookupEntry_setEntry_self {α : Type} (l : List (Coord × α)) (c : Coord)
    (v : α) : lookupEntry (setEntry l c v) c = some v := by
  induction l with
  | nil => simp [setEntry, lookupEntry]
  | cons e t ih =>
    by_cases he : e.1 = c
    · simp [setEntry, lookupEntry, he]
    · simp [setEntry, lookupEntry, he, ih]

theorem mem_setEntry {α : Type} {l : List (Coord × α)} {c : Coord} {v : α}
    {e : Coord × α} (h : e ∈ setEntry l c v) : e = (c, v) ∨ e ∈ l := by
  induction l with
  | nil => simpa [setEntry] using h
  | cons e' t ih =>
    by_cases he : e'.1 = c
    · simp only [setEntry, he, if_pos, List.mem_cons] at h
      rcases h with h | h
      · exact Or.inl h
      · exact Or.inr (List.mem_cons_of_mem _ h)
    · simp only [setEntry, he, if_neg, ite_false, List.mem_cons] at h
      rcases h with h | h
      · exact Or.inr (h ▸ List.mem_cons_self _ _)
      · rcases ih h with h2 | h2
        · exact Or.inl h2
        · exact Or.inr (List.mem_cons_of_mem _ h2)

theorem lookupEntry_mem {α : Type} :
    ∀ (l : List (Coord × α)) (c : Coord) (a : α),
      lookupEntry l c = some a → (c, a) ∈ l := by
  intro l
  induction l with
  | nil => intro c a h; simp [lookupEntry] at h
  | cons e t ih =>
    intro c a h
    obtain ⟨e1, e2⟩ := e
    by_cases he : e1 = c
    · simp only [lookupEntry, he, if_pos, Option.some.injEq] at h
      subst he
      subst h
      exact List.mem_cons_self _ _
    · simp only [lookupEntry, he, if_neg, ite_false] at h
      exact List.mem_cons_of_mem _ (ih c a h)

/-- The bounds test on a contribution is the bounds test on its coordinate. -/
theorem inBounds_eq_coordInBounds (N : ℤ) (v : VoxelData) :
    inBounds N v = coordInBounds N (coordOf v) := rfl

/-- A contribution the bounds check rejects leaves the grids unchanged. -/
theorem combineStep_out_of_bounds (N : ℤ) (st : GridsState) (v : VoxelData)
    (h : inBounds N v = false) : combineStep N st v = st := by
  unfold combineStep
  simp [h]

/-- A merge step only touches the entry at the contribution's coordinate. -/
theorem combineStep_lookup_ne (N : ℤ) (st : GridsState) (v : VoxelData)
    (c : Coord) (h : coordOf v ≠ c) :
    lookupEntry (combineStep N st v).rgb c = lookupEntry st.rgb c ∧
    lookupEntry (combineStep N st v).alpha c = lookupEntry st.alpha c := by
  unfold combineStep
  cases hb : inBounds N v
  · simp
  · by_cases ha : alphaValue st (coordOf v) = 0 <;>
      simp [ha, lookupEntry_setEntry_ne _ _ _ _ h]

/-- A coordinate no in-bounds contribution targets is never recorded. -/
theorem lookup_fold_none (N : ℤ) (c : Coord) :
    ∀ (l : List VoxelData) (st : GridsState),
      lookupEntry st.rgb c = none → lookupEntry st.alpha c = none →
      (∀ v ∈ l, inBounds N v = true → coordOf v ≠ c) →
      lookupEntry (l.foldl (combineStep N) st).rgb c = none ∧
      lookupEntry (l.foldl (combineStep N) st).alpha c = none := by
  intro l
  induction l with
  | nil => intro st h1 h2 _; exact ⟨h1, h2⟩
  | cons v t ih =>
    intro st h1 h2 hall
    simp only [List.foldl_cons]
    cases hb : inBounds N v
    · rw [combineStep_out_of_bounds N st v hb]
      exact ih st h1 h2 fun w hw => hall w (List.mem_cons_of_mem _ hw)
    · have hne : coordOf v ≠ c := hall v (List.mem_cons_self _ _) hb
      obtain ⟨hr, ha⟩ := combineStep_lookup_ne N st v c hne
      exact ih (combineStep N st v) (hr.trans h1) (ha.trans h2)
        fun w hw => hall w (List.mem_cons_of_mem _ hw)

/-- Folding the merge over a list equals folding it over the in-bounds
contributions only. -/
theorem foldl_filter_inBounds (N : ℤ) :
    ∀ (l : List VoxelData) (st : GridsState),
      l.foldl (combineStep N) st = (l.filter (inBounds N)).foldl (combineStep N) st := by
  intro l
  induction l with
  | nil => intro st; rfl
  | cons v t ih =>
    intro st
    cases hb : inBounds N v
    · simp only [List.foldl_cons, List.filter_cons, hb]
      rw [combineStep_out_of_bounds N st v hb]
      exact ih st
    · simp only [List.foldl_cons, List.filter_cons, hb, if_pos]
      exact ih (combineStep N st v)

/-- C6: out-of-range contributions are dropped: accumulating a contribution
list equals accumulating only its in-bounds part, and any coordinate outside
`[0, N-1]` on some axis appears in neither output grid. -/
theorem out_of_range_contributions_dropped (l : List VoxelData) (N : ℤ) :
    combineVoxels l N = combineVoxels (l.filter (inBounds N)) N ∧
    ∀ c : Coord, coordInBounds N c = false →
      lookupEntry (combineVoxels l N).rgb c = none ∧
      lookupEntry (combineVoxels l N).alpha c = none := by
  constructor
  · exact foldl_filter_inBounds N l emptyGrids
  · intro c hc
    apply lookup_fold_none N c l emptyGrids rfl rfl
    intro v _ hb hcv
    rw [inBounds_eq_coordInBounds, hcv, hc] at hb
    exact Bool.false_ne_true hb

/-- C6 witness: with `N = 4`, a contribution at `(4, 0, 0)` (x equal to `N`)
is dropped and its coordinate appears in neither grid. -/
theorem out_of_range_contributions_dropped_witness :
    lookupEntry (combineVoxels [vOut] 4).rgb (4, 0, 0) = none ∧
    lookupEntry (combineVoxels [vOut] 4).alpha (4, 0, 0) = none :=
  (out_of_range_contributions_dropped [vOut] 4).2 (4, 0, 0) (by decide)

/-- C8: the accumulator never records a zero-opacity entry: a single merge
step preserves strict positivity of every recorded opacity, and accumulating
any list of positive-weight contributions produces grids in which every
recorded opacity is strictly positive (so no coordinate is present in the
opacity volume with value 0). -/
theorem recorded_opacity_positive (N : ℤ) :
    (∀ (st : GridsState) (v : VoxelData),
        (∀ e ∈ st.alpha, 0 < e.2) → 0 < v.alpha →
        ∀ e ∈ (combineStep N st v).alpha, 0 < e.2) ∧
    (∀ l : List VoxelData, (∀ v ∈ l, 0 < v.alpha) →
        ∀ e ∈ (combineVoxels l N).alpha, 0 < e.2) := by
  have step : ∀ (st : GridsState) (v : VoxelData),
      (∀ e ∈ st.alpha, 0 < e.2) → 0 < v.alpha →
      ∀ e ∈ (combineStep N st v).alpha, 0 < e.2 := by
    intro st v hst hv e he
    unfold combineStep at he
    cases hb : inBounds N v
    · rw [hb] at he
      simp only [Bool.false_eq_true, if_false] at he
      exact hst e he
    · rw [hb] at he
      by_cases ha : alphaValue st (coordOf v) = 0
      · simp only [ha, if_pos, if_true] at he
        rcases mem_setEntry he with h | h
        · rw [h]; exact hv
        · exact hst e h
      · simp only [ha, if_neg, ite_false] at he
        rcases mem_setEntry he with h | h
        · rw [h]
          have h0 : 0 < alphaValue st (coordOf v) := by
            unfold alphaValue
            cases hl : lookupEntry st.alpha (coordOf v) with
            | none => exact absurd (by unfold alphaValue; rw [hl]; rfl) ha
            | some a => exact hst (coordOf v, a) (lookupEntry_mem _ _ _ hl)
          have : 0 < alphaValue st (coordOf v) + v.alpha := by linarith
          simpa using this
        · exact hst e h
  refine ⟨step, ?_⟩
  have main : ∀ (l : List VoxelData) (st : GridsState),
      (∀ e ∈ st.alpha, 0 < e.2) → (∀ v ∈ l, 0 < v.alpha) →
      ∀ e ∈ (l.foldl (combineStep N) st).alpha, 0 < e.2 := by
    intro l
    induction l with
    | nil => intro st hst _; exact hst
    | cons v t ih =>
      intro st hst hl
      simp only [List.foldl_cons]
      exact ih (combineStep N st v)
        (step st v hst (hl v (List.mem_cons_self _ _)))
        fun w hw => hl w (List.mem_cons_of_mem _ hw)
  intro l hl
  exact main l emptyGrids (by intro e he; simp [emptyGrids] at he) hl

/-- C8 witness: accumulating the single red weight-1 contribution records
opacity 1 at the origin, which is strictly positive. -/
theorem recorded_opacity_positive_witness :
    ((0, 0, 0), (1 : ℚ)) ∈ (combineVoxels [vRed] 4).alpha ∧
    (0 : ℚ) < ((((0, 0, 0) : Coord), (1 : ℚ))).2 :=
  ⟨by decide, (recorded_opacity_positive 4).2 [vRed] (by decide) ((0, 0, 0), 1) (by decide)⟩

/-- An in-bounds merge step at the contribution's own coordinate: the
recorded opacity grows by the weight and the color-times-opacity moment
grows by `color * weight`, per channel. -/
theorem combineStep_at_coord (N : ℤ) (st : GridsState) (v : VoxelData)
    (hb : inBounds N v = true) (hv : 0 < v.alpha)
    (h0 : 0 ≤ alphaValue st (coordOf v)) :
    alphaValue (combineStep N st v) (coordOf v)
        = alphaValue st (coordOf v) + v.alpha ∧
    (rgbValue (combineStep N st v) (coordOf v)).r
          * alphaValue (combineStep N st v) (coordOf v)
        = (rgbValue st (coordOf v)).r * alphaValue st (coordOf v)
          + v.color.r * v.alpha ∧
    (rgbValue (combineStep N st v) (coordOf v)).g
          * alphaValue (combineStep N st v) (coordOf v)
        = (rgbValue st (coordOf v)).g * alphaValue st (coordOf v)
          + v.color.g * v.alpha ∧
    (rgbValue (combineStep N st v) (coordOf v)).b
          * alphaValue (combineStep N st v) (coordOf v)
        = (rgbValue st (coordOf v)).b * alphaValue st (coordOf v)
          + v.color.b * v.alpha := by
  by_cases ha : alphaValue st (coordOf v) = 0
  · have ha' : (lookupEntry st.alpha (coordOf v)).getD 0 = 0 := ha
    have hA : alphaValue (combineStep N st v) (coordOf v) = v.alpha := by
      unfold combineStep alphaValue
      simp [hb, ha', lookupEntry_setEntry_self]
    have hC : rgbValue (combineStep N st v) (coordOf v) = v.color := by
      unfold combineStep rgbValue alphaValue
      simp [hb, ha', lookupEntry_setEntry_self]
    rw [hA, hC, ha]
    exact ⟨by ring, by ring, by ring, by ring⟩
  · have ha' : ¬ (lookupEntry st.alpha (coordOf v)).getD 0 = 0 := ha
    have hT : alphaValue st (coordOf v) + v.alpha ≠ 0 := by
      have := lt_of_le_of_ne h0 (Ne.symm ha)
      linarith
    have hA : alphaValue (combineStep N st v) (coordOf v)
        = alphaValue st (coordOf v) + v.alpha := by
      unfold combineStep alphaValue
      simp [hb, ha', lookupEntry_setEntry_self]
    have hC : rgbValue (combineStep N st v) (coordOf v)
        = ⟨((rgbValue st (coordOf v)).r * alphaValue st (coordOf v)
              + v.color.r * v.alpha) / (alphaValue st (coordOf v) + v.alpha),
           ((rgbValue st (coordOf v)).g * alphaValue st (coordOf v)
              + v.color.g * v.alpha) / (alphaValue st (coordOf v) + v.alpha),
           ((rgbValue st (coordOf v)).b * alphaValue st (coordOf v)
              + v.color.b * v.alpha) / (alphaValue st (coordOf v) + v.alpha)⟩ := by
      unfold combineStep rgbValue alphaValue
      simp [hb, ha', lookupEntry_setEntry_self]
    rw [hA, hC]
    refine ⟨rfl, ?_, ?_, ?_⟩ <;> exact div_mul_cancel₀ _ hT

/-- A merge step at a different coordinate changes neither value there. -/
theorem combineStep_value_ne (N : ℤ) (st : GridsState) (v : VoxelData)
    (c : Coord) (h : coordOf v ≠ c) :
    alphaValue (combineStep N st v) c = alphaValue st c ∧
    rgbValue (combineStep N st v) c = rgbValue st c := by
  obtain ⟨hr, ha⟩ := combineStep_lookup_ne N st v c h
  exact ⟨by unfold alphaValue; rw [ha], by unfold rgbValue; rw [hr]⟩

/-- Fold invariant of the accumulator at a fixed coordinate `c`: over any
contribution list with positive weights, the recorded opacity at `c` grows
by the total weight of the in-bounds contributions targeting `c`, and each
color-times-opacity channel grows by the corresponding moment. -/
theorem combine_fold_alpha_moment (N : ℤ) (c : Coord) :
    ∀ (l : List VoxelData) (st : GridsState),
      (∀ v ∈ l, 0 < v.alpha) → 0 ≤ alphaValue st c →
      alphaValue (l.foldl (combineStep N) st) c
          = alphaValue st c + weightSum (contribsAt l N c) ∧
      (rgbValue (l.foldl (combineStep N) st) c).r
            * alphaValue (l.foldl (combineStep N) st) c
          = (rgbValue st c).r * alphaValue st c + momentR (contribsAt l N c) ∧
      (rgbValue (l.foldl (combineStep N) st) c).g
            * alphaValue (l.foldl (combineStep N) st) c
          = (rgbValue st c).g * alphaValue st c + momentG (contribsAt l N c) ∧
      (rgbValue (l.foldl (combineStep N) st) c).b
            * alphaValue (l.foldl (combineStep N) st) c
          = (rgbValue st c).b * alphaValue st c + momentB (contribsAt l N c) := by
  intro l
  induction l with
  | nil =>
    intro st _ _
    simp [contribsAt, weightSum, momentR, momentG, momentB]
  | cons v t ih =>
    intro st hpos h0
    have hpt : ∀ w ∈ t, 0 < w.alpha := fun w hw => hpos w (List.mem_cons_of_mem _ hw)
    have hv : 0 < v.alpha := hpos v (List.mem_cons_self _ _)
    simp only [List.foldl_cons]
    cases hb : inBounds N v
    · rw [combineStep_out_of_bounds N st v hb]
      have hfc : contribsAt (v :: t) N c = contribsAt t N c := by
        simp [contribsAt, List.filter_cons, hb]
      rw [hfc]
      exact ih st hpt h0
    · by_cases hcv : coordOf v = c
      · subst hcv
        obtain ⟨hA, hR, hG, hB⟩ := combineStep_at_coord N st v hb hv h0
        have h0' : 0 ≤ alphaValue (combineStep N st v) (coordOf v) := by
          rw [hA]; linarith
        obtain ⟨ihA, ihR, ihG, ihB⟩ := ih (combineStep N st v) hpt h0'
        have hfc : contribsAt (v :: t) N (coordOf v)
            = v :: contribsAt t N (coordOf v) := by
          simp [contribsAt, List.filter_cons, hb]
        rw [hfc]
        simp only [weightSum, momentR, momentG, momentB, List.map_cons,
          List.sum_cons] at *
        refine ⟨by rw [ihA, hA]; ring, ?_, ?_, ?_⟩
        · rw [ihR, hR]; ring
        · rw [ihG, hG]; ring
        · rw [ihB, hB]; ring
      · obtain ⟨hA, hRGB⟩ := combineStep_value_ne N st v c hcv
        have h0' : 0 ≤ alphaValue (combineStep N st v) c := by rw [hA]; exact h0
        obtain ⟨ihA, ihR, ihG, ihB⟩ := ih (combineStep N st v) hpt h0'
        have hfc : contribsAt (v :: t) N c = contribsAt t N c := by
          simp [contribsAt, List.filter_cons, hb, hcv]
        rw [hfc]
        rw [hA] at ihA ihR ihG ihB
        rw [hRGB] at ihR ihG ihB
        exact ⟨ihA, ihR, ihG, ihB⟩

/-- A list of strictly positive weights with total weight zero is empty. -/
theorem contribs_nil_of_weightSum_zero (l : List VoxelData)
    (hpos : ∀ v ∈ l, 0 < v.alpha) (h : weightSum l = 0) : l = [] := by
  cases l with
  | nil => rfl
  | cons v t =>
    exfalso
    have h1 : 0 < v.alpha := hpos v (List.mem_cons_self _ _)
    have h2 : 0 ≤ weightSum t := by
      apply List.sum_nonneg
      intro x hx
      obtain ⟨w, hw, rfl⟩ := List.mem_map.mp hx
      exact le_of_lt (hpos w (List.mem_cons_of_mem _ hw))
    have h3 : weightSum (v :: t) = v.alpha + weightSum t := by
      simp [weightSum]
    rw [h3] at h
    linarith

/-- C2: the accumulator's merge is order-independent: for positive-weight
contribution lists that are permutations of each other, the final recorded
color and opacity agree at every coordinate. -/
theorem combineVoxels_order_independent (l₁ l₂ : List VoxelData) (N : ℤ)
    (hperm : l₁.Perm l₂) (hpos : ∀ v ∈ l₁, 0 < v.alpha) (c : Coord) :
    alphaValue (combineVoxels l₁ N) c = alphaValue (combineVoxels l₂ N) c ∧
    rgbValue (combineVoxels l₁ N) c = rgbValue (combineVoxels l₂ N) c := by
  have hpos₂ : ∀ v ∈ l₂, 0 < v.alpha := fun v hv => hpos v (hperm.mem_iff.mpr hv)
  have hfilter : (contribsAt l₁ N c).Perm (contribsAt l₂ N c) := hperm.filter _
  have hw : weightSum (contribsAt l₁ N c) = weightSum (contribsAt l₂ N c) :=
    List.Perm.sum_eq (hfilter.map _)
  have hmR : momentR (contribsAt l₁ N c) = momentR (contribsAt l₂ N c) :=
    List.Perm.sum_eq (hfilter.map _)
  have hmG : momentG (contribsAt l₁ N c) = momentG (contribsAt l₂ N c) :=
    List.Perm.sum_eq (hfilter.map _)
  have hmB : momentB (contribsAt l₁ N c) = momentB (contribsAt l₂ N c) :=
    List.Perm.sum_eq (hfilter.map _)
  obtain ⟨hA₁, hR₁, hG₁, hB₁⟩ :=
    combine_fold_alpha_moment N c l₁ emptyGrids hpos le_rfl
  obtain ⟨hA₂, hR₂, hG₂, hB₂⟩ :=
    combine_fold_alpha_moment N c l₂ emptyGrids hpos₂ le_rfl
  have hA0 : alphaValue emptyGrids c = 0 := rfl
  rw [hA0] at hA₁ hR₁ hG₁ hB₁ hA₂ hR₂ hG₂ hB₂
  constructor
  · show alphaValue (l₁.foldl (combineStep N) emptyGrids) c
        = alphaValue (l₂.foldl (combineStep N) emptyGrids) c
    rw [hA₁, hA₂, hw]
  · by_cases hS : weightSum (contribsAt l₁ N c) = 0
    · have hpos₁' : ∀ v ∈ contribsAt l₁ N c, 0 < v.alpha := fun v hv =>
        hpos v (List.mem_filter.mp hv).1
      have hnil₁ : contribsAt l₁ N c = [] :=
        contribs_nil_of_weightSum_zero _ hpos₁' hS
      have hnil₂ : contribsAt l₂ N c = [] := by
        have h2 : (contribsAt l₂ N c).Perm ([] : List VoxelData) := by
          rw [← hnil₁]; exact hfilter.symm
        exact h2.eq_nil
      have hcond₁ : ∀ v ∈ l₁, inBounds N v = true → coordOf v ≠ c := by
        intro v hv hbv hcv
        have hmem : v ∈ contribsAt l₁ N c :=
          List.mem_filter.mpr ⟨hv, by simp [hbv, hcv]⟩
        rw [hnil₁] at hmem
        simp at hmem
      have hcond₂ : ∀ v ∈ l₂, inBounds N v = true → coordOf v ≠ c := by
        intro v hv hbv hcv
        have hmem : v ∈ contribsAt l₂ N c :=
          List.mem_filter.mpr ⟨hv, by simp [hbv, hcv]⟩
        rw [hnil₂] at hmem
        simp at hmem
      have hnone₁ := lookup_fold_none N c l₁ emptyGrids rfl rfl hcond₁
      have hnone₂ := lookup_fold_none N c l₂ emptyGrids rfl rfl hcond₂
      show rgbValue (l₁.foldl (combineStep N) emptyGrids) c
          = rgbValue (l₂.foldl (combineStep N) emptyGrids) c
      unfold rgbValue
      rw [hnone₁.1, hnone₂.1]
    · have hT₁ : alphaValue (combineVoxels l₁ N) c
          = weightSum (contribsAt l₁ N c) := by
        show alphaValue (l₁.foldl (combineStep N) emptyGrids) c = _
        rw [hA₁]; ring
      have hT₂ : alphaValue (combineVoxels l₂ N) c
          = weightSum (contribsAt l₁ N c) := by
        show alphaValue (l₂.foldl (combineStep N) emptyGrids) c = _
        rw [hA₂, hw]; ring
      have e₁ : (rgbValue (combineVoxels l₁ N) c).r
            * weightSum (contribsAt l₁ N c) = momentR (contribsAt l₁ N c) := by
        have := hR₁
        rw [show (l₁.foldl (combineStep N) emptyGrids) = combineVoxels l₁ N from rfl,
          hT₁] at this
        rw [this]; ring
      have e₂ : (rgbValue (combineVoxels l₂ N) c).r
            * weightSum (contribsAt l₁ N c) = momentR (contribsAt l₁ N c) := by
        have := hR₂
        rw [show (l₂.foldl (combineStep N) emptyGrids) = combineVoxels l₂ N from rfl,
          hT₂] at this
        rw [this, hmR]; ring
      have f₁ : (rgbValue (combineVoxels l₁ N) c).g
            * weightSum (contribsAt l₁ N c) = momentG (contribsAt l₁ N c) := by
        have := hG₁
        rw [show (l₁.foldl (combineStep N) emptyGrids) = combineVoxels l₁ N from rfl,
          hT₁] at this
        rw [this]; ring
      have f₂ : (rgbValue (combineVoxels l₂ N) c).g
            * weightSum (contribsAt l₁ N c) = momentG (contribsAt l₁ N c) := by
        have := hG₂
        rw [show (l₂.foldl (combineStep N) emptyGrids) = combineVoxels l₂ N from rfl,
          hT₂] at this
        rw [this, hmG]; ring
      have g₁ : (rgbValue (combineVoxels l₁ N) c).b
            * weightSum (contribsAt l₁ N c) = momentB (contribsAt l₁ N c) := by
        have := hB₁
        rw [show (l₁.foldl (combineStep N) emptyGrids) = combineVoxels l₁ N from rfl,
          hT₁] at this
        rw [this]; ring
      have g₂ : (rgbValue (combineVoxels l₂ N) c).b
            * weightSum (contribsAt l₁ N c) = momentB (contribsAt l₁ N c) := by
        have := hB₂
        rw [show (l₂.foldl (combineStep N) emptyGrids) = combineVoxels l₂ N from rfl,
          hT₂] at this
        rw [this, hmB]; ring
      refine Vec3f.ext ?_ ?_ ?_
      · exact mul_right_cancel₀ hS (e₁.trans e₂.symm)
      · exact mul_right_cancel₀ hS (f₁.trans f₂.symm)
      · exact mul_right_cancel₀ hS (g₁.trans g₂.symm)

unseal Rat.mul Rat.inv Rat.add Rat.sub in
/-- C2 witness: merging red then green at one coordinate equals merging
green then red: opacity `2` and color `(1/2, 1/2, 0)`. -/
theorem combineVoxels_order_independent_witness :
    (alphaValue (combineVoxels [vRed, vGreen] 4) (0, 0, 0)
        = alphaValue (combineVoxels [vGreen, vRed] 4) (0, 0, 0) ∧
     rgbValue (combineVoxels [vRed, vGreen] 4) (0, 0, 0)
        = rgbValue (combineVoxels [vGreen, vRed] 4) (0, 0, 0)) ∧
    alphaValue (combineVoxels [vRed, vGreen] 4) (0, 0, 0) = 2 ∧
    rgbValue (combineVoxels [vRed, vGreen] 4) (0, 0, 0) = ⟨1/2, 1/2, 0⟩ :=
  ⟨combineVoxels_order_independent [vRed, vGreen] [vGreen, vRed] 4
      (List.Perm.swap vGreen vRed []) (by decide) (0, 0, 0),
   by decide, by decide⟩

end MultiviewVolume
